import Mathlib

/-!
Verification of the retrieval and graph engine of an offline memory store
(SQLite FTS + embeddings).  The definitions below are a shallow embedding of
the TypeScript core (`packages/core`): scores, confidences and vector
components are modelled as rationals, SQLite tables as lists of records, the
embedding provider as a pure oracle `String → Option EmbResult` (`none`
models a thrown/timed-out call), and fallible functions return `Except`.
-/

namespace OCMem

/-! ## Vector codec -/

/-- Models `Math.sqrt` on nonnegative rationals.  It is exact on perfect
squares (the only inputs whose square roots the claims inspect) and, like the
real square root, it is zero exactly on zero and positive on positives, which
is all the cosine-similarity code observes about `Math.sqrt` beyond its value
on perfect squares. -/
def ratSqrt (q : ℚ) : ℚ := (Nat.sqrt q.num.toNat : ℚ) / (Nat.sqrt q.den : ℚ)

/-- Pairwise dot product, the loop `dot += a[i]*b[i]` (callers check lengths). -/
def dotQ : List ℚ → List ℚ → ℚ
  | a :: as, b :: bs => a * b + dotQ as bs
  | _, _ => 0

/-- The private `cosine` helper of the core: throws on a length mismatch,
returns 0 when `Math.sqrt(na) * Math.sqrt(nb) === 0`. -/
def cosine (a b : List ℚ) : Except String ℚ :=
  if a.length ≠ b.length then .error "cosine: length mismatch"
  else
    let dot := dotQ a b
    let na := dotQ a a
    let nb := dotQ b b
    let denom := ratSqrt na * ratSqrt nb
    .ok (if denom = 0 then 0 else dot / denom)

/-- The exported `cosineSimilarity`: identical structure to `cosine`, with its
own error message. -/
def cosineSimilarity (a b : List ℚ) : Except String ℚ :=
  if a.length ≠ b.length then .error "Vector length mismatch"
  else
    let dotProduct := dotQ a b
    let normA := dotQ a a
    let normB := dotQ b b
    let denom := ratSqrt normA * ratSqrt normB
    .ok (if denom = 0 then 0 else dotProduct / denom)

/-- Float32 NaN test on the 32-bit pattern: all-ones exponent field and a
nonzero mantissa (this is exactly `Number.isNaN(f)` for the value carried by
the bit pattern). -/
def isNaN32 (x : Nat) : Bool :=
  ((x >>> 23) &&& 0xFF) == 255 && (x &&& 0x7FFFFF) != 0

/-- One step of `quantizeF32ToF16`: a 32-bit float, given by its IEEE-754 bit
pattern, to a 16-bit half-precision bit pattern, following the source
branch-for-branch (`f === Infinity` and `f === -Infinity` are the bit
patterns 0x7F800000 and 0xFF800000). -/
def quantizeBits (x : Nat) : Nat :=
  if isNaN32 x then 0x7E00
  else if x = 0x7F800000 then 0x7C00
  else if x = 0xFF800000 then 0xFC00
  else
    let sign := (x >>> 31) &&& 0x1
    let exponent := (x >>> 23) &&& 0xFF
    let mantissa := x &&& 0x7FFFFF
    if exponent = 0 then
      sign <<< 15
    else if exponent = 255 then
      (sign <<< 15) ||| 0x7C00 ||| (if mantissa ≠ 0 then 0x200 else 0)
    else
      let e : Int := (exponent : Int) - 127 + 15
      if 31 ≤ e then
        (sign <<< 15) ||| 0x7C00
      else if e ≤ 0 then
        if e < -10 then
          sign <<< 15
        else
          let mantissa2 := mantissa ||| 0x800000
          let shift := 14 - e
          (sign <<< 15) ||| (mantissa2 >>> shift.toNat)
      else
        (sign <<< 15) ||| (e.toNat <<< 10) ||| (mantissa >>> 13)

/-- JS `Math.clz32` restricted to the range the dequantizer uses. -/
def clz32 (n : Nat) : Nat := if n = 0 then 32 else 31 - Nat.log2 n

/-- The value classes a `Float32Array` slot can hold after dequantization:
NaN, signed infinity, signed zero, or a nonzero (rational) finite value.
`sign = true` means negative. -/
inductive FVal where
  | nan : FVal
  | inf (sign : Bool) : FVal
  | zero (sign : Bool) : FVal
  | finite (val : ℚ) : FVal
deriving DecidableEq

/-- One step of `dequantizeF16ToF32`: a half-precision bit pattern back to a
float value, following the source branch-for-branch. -/
def dequantizeBits (h : Nat) : FVal :=
  let sign := (h >>> 15) &&& 0x1
  let exponent := (h >>> 10) &&& 0x1F
  let mantissa := h &&& 0x3FF
  if exponent = 0 then
    if mantissa = 0 then
      .zero (sign == 1)
    else
      let e := clz32 mantissa - 21
      .finite ((if sign == 1 then -1 else 1) * ((mantissa <<< e : Nat) : ℚ) * (2 : ℚ) ^ (-24 : ℤ))
  else if exponent = 31 then
    if mantissa ≠ 0 then .nan else .inf (sign == 1)
  else
    .finite ((if sign == 1 then -1 else 1) * (2 : ℚ) ^ ((exponent : ℤ) - 15) * (1 + (mantissa : ℚ) / 1024))

/-- `quantizeF32ToF16` maps the conversion over the vector. -/
def quantizeF32ToF16 (vec : List Nat) : List Nat := vec.map quantizeBits

/-- `dequantizeF16ToF32` maps the conversion over the vector. -/
def dequantizeF16ToF32 (vec : List Nat) : List FVal := vec.map dequantizeBits

/-! ## FTS5 query escaping -/

/-- Whitespace as used by the query escaper (the characters relevant to
`String.prototype.trim` and the regex class `\s` on the queries at issue). -/
def isWsChar (c : Char) : Bool := c == ' ' || c == '\t' || c == '\n' || c == '\r'

/-- The regex character class `[\p{L}\p{N}_]` (a word-token character):
alphanumeric or underscore. -/
def isWordChar (c : Char) : Bool := c.isAlphanum || c == '_'

/-- `query.trim()` on a string modelled as a list of characters. -/
def trimChars (s : List Char) : List Char :=
  ((s.dropWhile isWsChar).reverse.dropWhile isWsChar).reverse

/-- Automaton run for the regex tail after the mandatory first word
character: `inTok = true` when the previous character was a word character
(an accepting position), `false` inside separator whitespace. -/
def reRun (inTok : Bool) : List Char → Bool
  | [] => inTok
  | c :: rest =>
    if isWordChar c then reRun true rest
    else if isWsChar c then reRun false rest
    else false

/-- Acceptance by the source's regex `^[\p{L}\p{N}_]+(?:\s+[\p{L}\p{N}_]+)*$`. -/
def reAccept (s : List Char) : Bool :=
  match s with
  | [] => false
  | c :: rest => isWordChar c && reRun true rest

/-- `escapeFts5Query`: trim; empty becomes the empty phrase; a simple
word-token query passes through; anything else is wrapped as a quoted phrase
with internal quotes doubled. -/
def escapeFts5Query (query : List Char) : List Char :=
  let q := trimChars query
  if q.isEmpty then ['"', '"']
  else if reAccept q then q
  else '"' :: (q.flatMap fun c => if c == '"' then ['"', '"'] else [c]) ++ ['"']

/-! ## Fact store -/

/-- A row of the `facts` table. -/
structure Fact where
  id : String
  created_at : Nat
  subject : String
  predicate : String
  object : String
  confidence : ℚ
  source_item_id : Option String
  entity_id : Option String
deriving DecidableEq

/-- `InsertFactInput`: a `Fact` with `created_at` optional. -/
structure InsertFactInput where
  id : String
  created_at : Option Nat
  subject : String
  predicate : String
  object : String
  confidence : ℚ
  source_item_id : Option String
  entity_id : Option String
deriving DecidableEq

/-- `insertFact`: appends a row built verbatim from the input (with
`created_at` defaulted to `Date.now()`), and returns the inserted fact.
The first component is the new `facts` table, the second the returned fact. -/
def insertFact (facts : List Fact) (input : InsertFactInput) (now : Nat) :
    List Fact × Fact :=
  let created_at := input.created_at.getD now
  let f : Fact := ⟨input.id, created_at, input.subject, input.predicate,
    input.object, input.confidence, input.source_item_id, input.entity_id⟩
  (facts ++ [f], f)

/-! ## Knowledge graph -/

/-- `GraphEdge`: the projection of a fact used by the graph engine. -/
structure GraphEdge where
  subject : String
  predicate : String
  object : String
  confidence : ℚ
deriving DecidableEq

/-- One entry of a path: an entity, together with the edge that was walked to
reach it (`none` for the starting entry). -/
structure PathEntry where
  entity : String
  edge : Option GraphEdge
deriving DecidableEq

/-- `GraphPath`: the source's `from`/`to` fields are named `fromE`/`toE`
here (`from` is a Lean keyword). -/
structure GraphPath where
  fromE : String
  toE : String
  path : List PathEntry
  length : Nat
deriving DecidableEq

/-- A breadth-first-search queue entry. -/
structure BfsNode where
  entity : String
  path : List PathEntry
deriving DecidableEq

/-- Projection of the `facts` table to graph edges (`SELECT subject,
predicate, object, confidence FROM facts`). -/
def edgesOfFacts (facts : List Fact) : List GraphEdge :=
  facts.map fun f => ⟨f.subject, f.predicate, f.object, f.confidence⟩

/-- The undirected adjacency list built by `findPaths`: for each fact the
subject gains the object as neighbor and vice versa (a self-loop fact
contributes two entries, as in the source). -/
def adjacencyOf (edges : List GraphEdge) (x : String) : List (String × GraphEdge) :=
  edges.flatMap fun e =>
    (if e.subject = x then [(e.object, e)] else []) ++
    (if e.object = x then [(e.subject, e)] else [])

/-- The `while` loop of `findPaths`, with explicit fuel (the loop makes at
most `1 + 2 * edges.length` iterations, since every enqueue after the first
consumes a fresh visited key and there are at most `2 * edges.length` keys;
`findPaths` passes more fuel than that, so the fuel never runs out). -/
def bfsLoop (edges : List GraphEdge) (fromEntity toEntity : String)
    (maxDepth maxPaths : Nat) :
    Nat → List BfsNode → List String → List GraphPath → List GraphPath
  | 0, _, _, paths => paths
  | fuel + 1, queue, visited, paths =>
    if maxPaths ≤ paths.length then paths
    else
      match queue with
      | [] => paths
      | current :: rest =>
        if current.entity = toEntity ∧ 1 < current.path.length then
          bfsLoop edges fromEntity toEntity maxDepth maxPaths fuel rest visited
            (paths ++ [⟨fromEntity, toEntity, current.path, current.path.length - 1⟩])
        else if maxDepth < current.path.length then
          bfsLoop edges fromEntity toEntity maxDepth maxPaths fuel rest visited paths
        else
          let step := (adjacencyOf edges current.entity).foldl
            (fun (acc : List String × List BfsNode) nb =>
              let key := current.entity ++ "|" ++ nb.1
              if acc.1.contains key then acc
              else (key :: acc.1,
                acc.2 ++ [⟨nb.1, current.path ++ [⟨nb.1, some nb.2⟩]⟩]))
            (visited, [])
          bfsLoop edges fromEntity toEntity maxDepth maxPaths fuel
            (rest ++ step.2) step.1 paths

/-- Stable insertion for the final ascending `paths.sort((a, b) => a.length - b.length)`. -/
def insertPathAsc (x : GraphPath) : List GraphPath → List GraphPath
  | [] => [x]
  | y :: ys => if x.length ≤ y.length then x :: y :: ys else y :: insertPathAsc x ys

/-- Stable sort of the found paths by ascending length. -/
def sortPathsByLen : List GraphPath → List GraphPath
  | [] => []
  | x :: xs => insertPathAsc x (sortPathsByLen xs)

/-- `findPaths`: build the undirected adjacency view of all facts, run a BFS
whose visited set holds directed edge traversals (keys `a ++ "|" ++ b`), and
return at most `maxPaths` paths sorted by ascending length. -/
def findPaths (facts : List Fact) (fromEntity toEntity : String)
    (maxDepth maxPaths : Nat) : List GraphPath :=
  let allEdges := edgesOfFacts facts
  sortPathsByLen (bfsLoop allEdges fromEntity toEntity maxDepth maxPaths
    (2 * allEdges.length + 2) [⟨fromEntity, [⟨fromEntity, none⟩]⟩] [] [])

/-! ## Items, embedding cache and hybrid retrieval -/

/-- A row of the `items` table. -/
structure MemItem where
  id : String
  created_at : Nat
  source : Option String
  source_id : Option String
  title : Option String
  text : String
  tags : Option String
  meta : Option String
  entity_id : Option String
  process_id : Option String
  session_id : Option String
deriving DecidableEq

/-- `LexicalResult = { item, lexicalScore }`. -/
structure LexicalResult where
  item : MemItem
  lexicalScore : ℚ
deriving DecidableEq

/-- `HybridResult`: a lexical result plus `semanticScore | null` and the
fused `score`. -/
structure HybridResult where
  item : MemItem
  lexicalScore : ℚ
  semanticScore : Option ℚ
  score : ℚ
deriving DecidableEq

/-- A row of the `embeddings` table.  Its SQL primary key is `item_id`
alone. -/
structure EmbRow where
  item_id : String
  model : String
  dims : Nat
  vector : List ℚ
  updated_at : Nat
deriving DecidableEq

/-- The value a successful provider call returns: `{ vector, dims, model }`. -/
structure EmbResult where
  vector : List ℚ
  dims : Nat
  model : String
deriving DecidableEq

/-- `SELECT model, dims, vector FROM embeddings WHERE item_id = ? AND model = ?`. -/
def lookupEmb (tbl : List EmbRow) (itemId modelName : String) : Option EmbRow :=
  tbl.find? fun r => r.item_id == itemId && r.model == modelName

/-- `INSERT INTO embeddings ... ON CONFLICT(item_id) DO UPDATE SET model, dims,
vector, updated_at`: the conflict target is the table's primary key
`item_id`, so a row with the same `item_id` is overwritten whatever its
`model`; otherwise the row is appended. -/
def upsertEmb (tbl : List EmbRow) (row : EmbRow) : List EmbRow :=
  if tbl.any (fun r => r.item_id == row.item_id) then
    tbl.map fun r =>
      if r.item_id = row.item_id then
        ⟨r.item_id, row.model, row.dims, row.vector, row.updated_at⟩
      else r
  else tbl ++ [row]

/-- `getOrCreateItemEmbedding`: cache lookup keyed by `(itemId, modelName)`;
on a miss, consult the provider (`fetched` is what `fetchEmbedding(cfg, text)`
returns for this item's text, `none` modelling a throw) and persist a hit via
the upsert.  Returns the embedding (or `none`) and the updated table. -/
def getOrCreateItemEmbedding (tbl : List EmbRow) (modelName itemId : String)
    (fetched : Option EmbResult) (now : Nat) : Option EmbResult × List EmbRow :=
  match lookupEmb tbl itemId modelName with
  | some row => (some ⟨row.vector, row.dims, row.model⟩, tbl)
  | none =>
    match fetched with
    | some emb => (some emb, upsertEmb tbl ⟨itemId, emb.model, emb.dims, emb.vector, now⟩)
    | none => (none, tbl)

/-- Stable insertion for `ORDER BY created_at DESC` over the in-memory items
list. -/
def insertCreatedDesc (x : MemItem) : List MemItem → List MemItem
  | [] => [x]
  | y :: ys => if y.created_at ≤ x.created_at then x :: y :: ys else y :: insertCreatedDesc x ys

/-- The items table ordered by descending creation time. -/
def sortByCreatedDesc : List MemItem → List MemItem
  | [] => []
  | x :: xs => insertCreatedDesc x (sortByCreatedDesc xs)

/-- The recency candidates: the `candidates` most recently created items,
assigned lexical score 0. -/
def recentCandidates (items : List MemItem) (candidates : Nat) : List LexicalResult :=
  ((sortByCreatedDesc items).take candidates).map fun it => ⟨it, 0⟩

/-- The dedup-by-id loop over `[...lexHits, ...recent]`, keeping the first
(lexical-pass) entry for each id. -/
def dedupById (rs : List LexicalResult) (seen : List String) : List LexicalResult :=
  match rs with
  | [] => []
  | r :: rs2 =>
    if seen.contains r.item.id then dedupById rs2 seen
    else r :: dedupById rs2 (r.item.id :: seen)

/-- The merged candidate pool of `hybridSearch`: top lexical hits union the
most recent items, deduplicated by item id. -/
def mergedCandidates (items : List MemItem) (lexHits : List LexicalResult)
    (candidates : Nat) : List LexicalResult :=
  dedupById (lexHits ++ recentCandidates items candidates) []

/-- Minimum lexical score over the candidate set (`Math.min(...lexScores)`;
only used on a nonempty set). -/
def minLexOf : List LexicalResult → ℚ
  | [] => 0
  | r :: rs => (rs.map fun x => x.lexicalScore).foldl min r.lexicalScore

/-- Maximum lexical score over the candidate set (`Math.max(...lexScores)`). -/
def maxLexOf : List LexicalResult → ℚ
  | [] => 0
  | r :: rs => (rs.map fun x => x.lexicalScore).foldl max r.lexicalScore

/-- The normalization denominator `maxLex - minLex || 1`. -/
def denomLexOf (l : List LexicalResult) : ℚ :=
  if maxLexOf l - minLexOf l = 0 then 1 else maxLexOf l - minLexOf l

/-- An entry of the lexical-only fallback list: `{...r, semanticScore: null,
score: r.lexicalScore}`. -/
def fallbackResult (r : LexicalResult) : HybridResult :=
  ⟨r.item, r.lexicalScore, none, r.lexicalScore⟩

/-- Normalized semantic contribution: `(cos + 1) / 2` when a similarity was
computed, 0 when the vector was unavailable. -/
def semNormOf : Option ℚ → ℚ
  | none => 0
  | some c => (c + 1) / 2

/-- The semantic score of one candidate: `itemEmb ? cosine(queryEmb.vector,
itemEmb.vector) : null`, where a cosine length-mismatch throw propagates. -/
def semOf (qv : List ℚ) (embOpt : Option EmbResult) : Except String (Option ℚ) :=
  match embOpt with
  | some itemEmb => (cosine qv itemEmb.vector).map some
  | none => .ok none

/-- The per-candidate scoring loop of `hybridSearch`: fetch-or-reuse the
item's vector (threading the embeddings table), compute the cosine against
the query vector (a length mismatch propagates as a thrown error), normalize
and fuse. -/
def scoreLoop (provider : String → Option EmbResult) (modelName : String)
    (now : Nat) (qv : List ℚ) (minLex denom w : ℚ)
    (rs : List LexicalResult) (tbl : List EmbRow) :
    Except String (List HybridResult × List EmbRow) :=
  match rs with
  | [] => .ok ([], tbl)
  | r :: rs2 =>
    let fetched := getOrCreateItemEmbedding tbl modelName r.item.id (provider r.item.text) now
    match semOf qv fetched.1 with
    | .error e => .error e
    | .ok sem =>
      let lexNorm := (r.lexicalScore - minLex) / denom
      let score := (1 - w) * lexNorm + w * semNormOf sem
      match scoreLoop provider modelName now qv minLex denom w rs2 fetched.2 with
      | .error e => .error e
      | .ok (out, tblF) => .ok (⟨r.item, r.lexicalScore, sem, score⟩ :: out, tblF)

/-- Stable insertion for the final descending `out.sort((a, b) => b.score - a.score)`. -/
def insertScoreDesc (x : HybridResult) : List HybridResult → List HybridResult
  | [] => [x]
  | y :: ys => if y.score ≤ x.score then x :: y :: ys else y :: insertScoreDesc x ys

/-- Stable sort of the fused results by descending score. -/
def sortByScoreDesc : List HybridResult → List HybridResult
  | [] => []
  | x :: xs => insertScoreDesc x (sortByScoreDesc xs)

/-- `hybridSearch`.  `lexHits` is the ranked output of the external lexical
index for this query (already sign-inverted, best first); `provider` is the
embedding provider oracle; `modelName` is `cfg.embeddingModel ?? 'bge-m3'`.
Returns the ranked results together with the updated embeddings table, or a
thrown error. -/
def hybridSearch (items : List MemItem) (tbl : List EmbRow)
    (lexHits : List LexicalResult) (provider : String → Option EmbResult)
    (modelName query : String) (topK candidates : Nat) (w : ℚ) (now : Nat) :
    Except String (List HybridResult × List EmbRow) :=
  let merged := mergedCandidates items lexHits candidates
  match merged with
  | [] => .ok ([], tbl)
  | m :: ms =>
    match provider query with
    | none =>
      .ok (((m :: ms).take topK).map fallbackResult, tbl)
    | some queryEmb =>
      let minLex := minLexOf (m :: ms)
      let denomLex := denomLexOf (m :: ms)
      match scoreLoop provider modelName now queryEmb.vector minLex denomLex w (m :: ms) tbl with
      | .error e => .error e
      | .ok (out, tblF) => .ok ((sortByScoreDesc out).take topK, tblF)

/-- `FilterOpts`: each field is `undefined` (outer `none`: no constraint) or
supplied with a `string | null` value. -/
structure FilterOpts where
  entity_id : Option (Option String)
  process_id : Option (Option String)
  session_id : Option (Option String)
deriving DecidableEq

/-- The predicate of `filterResults`: every supplied field must equal the
item's field exactly. -/
def matchesFilter (opts : FilterOpts) (r : HybridResult) : Bool :=
  (match opts.entity_id with | none => true | some v => r.item.entity_id == v) &&
  (match opts.process_id with | none => true | some v => r.item.process_id == v) &&
  (match opts.session_id with | none => true | some v => r.item.session_id == v)

/-- `filterResults`: keep exactly the results matching the filter. -/
def filterResults (results : List HybridResult) (opts : FilterOpts) : List HybridResult :=
  results.filter (matchesFilter opts)

/-- `hybridSearchFiltered`: run `hybridSearch`, then apply `filterResults`
when a filter was supplied. -/
def hybridSearchFiltered (items : List MemItem) (tbl : List EmbRow)
    (lexHits : List LexicalResult) (provider : String → Option EmbResult)
    (modelName query : String) (topK candidates : Nat) (w : ℚ) (now : Nat)
    (filter? : Option FilterOpts) :
    Except String (List HybridResult × List EmbRow) :=
  match hybridSearch items tbl lexHits provider modelName query topK candidates w now with
  | .error e => .error e
  | .ok (results, t) =>
    match filter? with
    | none => .ok (results, t)
    | some f => .ok (filterResults results f, t)

/-! ## Spec-side predicates used to state the claims -/

-- Decidable equality for `Except`, used to evaluate concrete runs.
deriving instance DecidableEq for Except

/-- The claim's phrase "composed solely of alphanumeric/underscore word
tokens separated by whitespace": nonempty, begins and ends with a word
character, and contains only word or whitespace characters (the maximal
word runs are then the tokens and every whitespace run lies between two
tokens). -/
def wordTokensOnly (s : List Char) : Bool :=
  !s.isEmpty && isWordChar (s.headD 'x') && isWordChar (s.getLastD 'x') &&
    s.all fun c => isWordChar c || isWsChar c

/-- One link of a path is valid when the entry carries an edge that is a
stored fact whose unordered `{subject, object}` pair is the pair of adjacent
entities. -/
def linkB (edges : List GraphEdge) (x y : PathEntry) : Bool :=
  match y.edge with
  | none => false
  | some e =>
    decide (e ∈ edges) &&
      ((e.subject == x.entity && e.object == y.entity) ||
       (e.subject == y.entity && e.object == x.entity))

/-- A path entry list is chained when every consecutive pair of entries is
joined by a valid stored edge. -/
def chainedB (edges : List GraphEdge) : List PathEntry → Bool
  | [] => true
  | [_] => true
  | x :: y :: rest => linkB edges x y && chainedB edges (y :: rest)

/-- Invariant of every BFS queue entry: its path is a nonempty chained walk
from the search origin to the entry's own entity. -/
def NodeInv (edges : List GraphEdge) (fromE : String) (n : BfsNode) : Prop :=
  n.path ≠ [] ∧ (n.path.headD ⟨"", none⟩).entity = fromE ∧
    (n.path.getLastD ⟨"", none⟩).entity = n.entity ∧ chainedB edges n.path = true

/-- Invariant of every accumulated result path: well-formed endpoints, at
least one edge, a consistent reported length, and a chained walk. -/
def PathInv (edges : List GraphEdge) (fromE toE : String) (p : GraphPath) : Prop :=
  p.fromE = fromE ∧ p.toE = toE ∧ 2 ≤ p.path.length ∧
    (p.path.headD ⟨"", none⟩).entity = fromE ∧
    (p.path.getLastD ⟨"", none⟩).entity = toE ∧
    p.length + 1 = p.path.length ∧ chainedB edges p.path = true

/-! ## Fact store: confidence handling (C1) -/

/-- C1 counterexample: `insertFact` performs no clamping.  Inserting a fact
with confidence 2 stores 2 in the fact table, which is outside [0,1], so
the claim "the confidence stored in the fact table lies in [0,1]; an
out-of-range input is clamped at write time" is false. -/
theorem insertFact_no_clamp_cex :
    (insertFact [] (⟨"f1", some 0, "s", "p", "o", 2, none, none⟩ : InsertFactInput) 0).1
      = [(⟨"f1", 0, "s", "p", "o", 2, none, none⟩ : Fact)] ∧
    ¬((2 : ℚ) ≤ 1) := by
  decide

/-- C1 amended: `insertFact` stores the input confidence verbatim — it is
neither clamped nor rejected — so the stored confidence lies in [0,1] exactly
when the input confidence does. -/
theorem insertFact_confidence_verbatim (facts : List Fact) (input : InsertFactInput)
    (now : Nat) :
    (insertFact facts input now).2.confidence = input.confidence ∧
    (insertFact facts input now).1 = facts ++ [(insertFact facts input now).2] ∧
    ((0 ≤ (insertFact facts input now).2.confidence ∧
        (insertFact facts input now).2.confidence ≤ 1)
      ↔ (0 ≤ input.confidence ∧ input.confidence ≤ 1)) :=
  ⟨rfl, rfl, Iff.rfl⟩

/-! ## Cosine similarity (C8) -/

lemma ratSqrt_zero : ratSqrt 0 = 0 := by norm_num [ratSqrt]

/-- C8: `cosineSimilarity` throws a dimension-mismatch error exactly when the
two vectors differ in length, and for equal-length vectors with a zero norm
on either side it returns 0 (a defined result, not an error). -/
theorem cosineSimilarity_error_iff_and_zero_norm (a b : List ℚ) :
    ((∃ msg, cosineSimilarity a b = .error msg) ↔ a.length ≠ b.length) ∧
    (a.length = b.length → (dotQ a a = 0 ∨ dotQ b b = 0) →
      cosineSimilarity a b = .ok 0) := by
  constructor
  · constructor
    · rintro ⟨msg, hmsg⟩ hlen
      unfold cosineSimilarity at hmsg
      rw [if_neg (by simp [hlen])] at hmsg
      exact Except.noConfusion hmsg
    · intro hlen
      refine ⟨"Vector length mismatch", ?_⟩
      unfold cosineSimilarity
      rw [if_pos hlen]
  · intro hlen hz
    have hden : ratSqrt (dotQ a a) * ratSqrt (dotQ b b) = 0 := by
      rcases hz with h | h
      · rw [h, ratSqrt_zero, zero_mul]
      · rw [h, ratSqrt_zero, mul_zero]
    unfold cosineSimilarity
    rw [if_neg (by simp [hlen])]
    simp [hden]

/-- C8 witness: a zero-norm vector yields the defined result 0, and a length
mismatch yields an error, on concrete inputs. -/
theorem cosineSimilarity_witness :
    cosineSimilarity [(0 : ℚ)] [3] = .ok 0 ∧
    (∃ msg, cosineSimilarity [(1 : ℚ)] [1, 2] = .error msg) :=
  ⟨(cosineSimilarity_error_iff_and_zero_norm [0] [3]).2 rfl (Or.inl (by norm_num [dotQ])),
   (cosineSimilarity_error_iff_and_zero_norm [1] [1, 2]).1.mpr (by decide)⟩

/-! ## Quantizer round trip on the special classes (C7) -/

lemma dequantize_quantize_nan (b : Nat) (hb : isNaN32 b = true) :
    dequantizeBits (quantizeBits b) = FVal.nan := by
  unfold quantizeBits
  rw [if_pos hb]
  decide

/-- C7: at every position of the input vector, quantize-then-dequantize sends
a NaN to NaN, positive and negative infinity to themselves, and the two
signed zeros to themselves (the sign of zero round-trips). -/
theorem quantize_dequantize_special_exact (v : List Nat) (i : Nat) (h : i < v.length) :
    (isNaN32 (v.get ⟨i, h⟩) = true →
      (dequantizeF16ToF32 (quantizeF32ToF16 v)).get? i = some FVal.nan) ∧
    (v.get ⟨i, h⟩ = 0x7F800000 →
      (dequantizeF16ToF32 (quantizeF32ToF16 v)).get? i = some (FVal.inf false)) ∧
    (v.get ⟨i, h⟩ = 0xFF800000 →
      (dequantizeF16ToF32 (quantizeF32ToF16 v)).get? i = some (FVal.inf true)) ∧
    (v.get ⟨i, h⟩ = 0 →
      (dequantizeF16ToF32 (quantizeF32ToF16 v)).get? i = some (FVal.zero false)) ∧
    (v.get ⟨i, h⟩ = 0x80000000 →
      (dequantizeF16ToF32 (quantizeF32ToF16 v)).get? i = some (FVal.zero true)) := by
  have hmap : (dequantizeF16ToF32 (quantizeF32ToF16 v)).get? i
      = (v.get? i).map fun b => dequantizeBits (quantizeBits b) := by
    simp [dequantizeF16ToF32, quantizeF32ToF16, List.map_map, Function.comp_def]
  have hv : v.get? i = some (v.get ⟨i, h⟩) := List.get?_eq_get h
  refine ⟨?_, ?_, ?_, ?_, ?_⟩ <;> intro hb <;>
    rw [hmap, hv, Option.map_some']
  · rw [dequantize_quantize_nan _ hb]
  · rw [hb]; decide
  · rw [hb]; decide
  · rw [hb]; decide
  · rw [hb]; decide

/-- C7 witness: round trip evaluated on a concrete vector holding a NaN and a
positive infinity. -/
theorem quantize_dequantize_special_witness :
    (dequantizeF16ToF32 (quantizeF32ToF16 [0x7FC00000, 0x7F800000])).get? 0
      = some FVal.nan ∧
    (dequantizeF16ToF32 (quantizeF32ToF16 [0x7FC00000, 0x7F800000])).get? 1
      = some (FVal.inf false) :=
  ⟨(quantize_dequantize_special_exact [0x7FC00000, 0x7F800000] 0 (by decide)).1 (by decide),
   (quantize_dequantize_special_exact [0x7FC00000, 0x7F800000] 1 (by decide)).2.1 (by decide)⟩

/-! ## Embedding upsert frame (C4) -/

lemma filter_map_overwrite (tbl : List EmbRow) (row : EmbRow) :
    (tbl.map fun r => if r.item_id = row.item_id then
        (⟨r.item_id, row.model, row.dims, row.vector, row.updated_at⟩ : EmbRow) else r).filter
      (fun r => r.item_id != row.item_id)
      = tbl.filter fun r => r.item_id != row.item_id := by
  induction tbl with
  | nil => rfl
  | cons a rest ih =>
    by_cases hid : a.item_id = row.item_id
    · simp [List.filter_cons, hid, ih]
    · simp [List.filter_cons, hid, ih]

lemma upsertEmb_filter_ne (tbl : List EmbRow) (row : EmbRow) :
    (upsertEmb tbl row).filter (fun r => r.item_id != row.item_id)
      = tbl.filter fun r => r.item_id != row.item_id := by
  unfold upsertEmb
  split
  · exact filter_map_overwrite tbl row
  · simp [List.filter_append, List.filter]

lemma upsertEmb_pairwise (tbl : List EmbRow) (row : EmbRow)
    (hp : tbl.Pairwise fun a b => a.item_id ≠ b.item_id) :
    (upsertEmb tbl row).Pairwise fun a b => a.item_id ≠ b.item_id := by
  unfold upsertEmb
  split
  · rw [List.pairwise_map]
    have hid : ∀ r : EmbRow, (if r.item_id = row.item_id then
        (⟨r.item_id, row.model, row.dims, row.vector, row.updated_at⟩ : EmbRow) else r).item_id
        = r.item_id := by
      intro r; split <;> rfl
    exact hp.imp fun hab => by simpa [hid] using hab
  · rename_i hany
    rw [List.pairwise_append]
    refine ⟨hp, List.pairwise_singleton _ _, ?_⟩
    intro a ha b hb heq
    simp only [List.mem_singleton] at hb
    subst hb
    apply hany
    rw [List.any_eq_true]
    exact ⟨a, ha, by simp [heq]⟩

/-- C4 counterexample: the embeddings table's primary key is `item_id` alone,
so a successful fetch-and-persist for ("i", model "A") REPLACES the prior
record for ("i", model "B") instead of leaving it unchanged, refuting the
claimed per-(item id, model) frame property. -/
theorem getOrCreateItemEmbedding_overwrites_other_model_cex :
    getOrCreateItemEmbedding [(⟨"i", "B", 1, [2], 0⟩ : EmbRow)] "A" "i"
        (some ⟨[3], 1, "A"⟩) 5
      = (some ⟨[3], 1, "A"⟩, [⟨"i", "A", 1, [3], 5⟩]) ∧
    (⟨"i", "B", 1, [2], 0⟩ : EmbRow) ∉
      (getOrCreateItemEmbedding [(⟨"i", "B", 1, [2], 0⟩ : EmbRow)] "A" "i"
        (some ⟨[3], 1, "A"⟩) 5).2 := by
  decide

/-- C4 amended: the store holds at most one embedding record per item id (the
table's primary key), and `getOrCreateItemEmbedding` is a frame over the
other item ids: rows with a different `item_id` — whatever their model — are
exactly preserved, and the one-row-per-item invariant is preserved. -/
theorem getOrCreateItemEmbedding_frame (tbl : List EmbRow) (modelName itemId : String)
    (fetched : Option EmbResult) (now : Nat) :
    ((getOrCreateItemEmbedding tbl modelName itemId fetched now).2.filter
        (fun r => r.item_id != itemId)
      = tbl.filter fun r => r.item_id != itemId) ∧
    (tbl.Pairwise (fun a b => a.item_id ≠ b.item_id) →
      ((getOrCreateItemEmbedding tbl modelName itemId fetched now).2).Pairwise
        fun a b => a.item_id ≠ b.item_id) := by
  cases hlook : lookupEmb tbl itemId modelName with
  | some r =>
    constructor
    · simp [getOrCreateItemEmbedding, hlook]
    · intro hp
      simpa [getOrCreateItemEmbedding, hlook] using hp
  | none =>
    cases fetched with
    | some emb =>
      constructor
      · simpa [getOrCreateItemEmbedding, hlook] using
          upsertEmb_filter_ne tbl ⟨itemId, emb.model, emb.dims, emb.vector, now⟩
      · intro hp
        simpa [getOrCreateItemEmbedding, hlook] using
          upsertEmb_pairwise tbl ⟨itemId, emb.model, emb.dims, emb.vector, now⟩ hp
    | none =>
      constructor
      · simp [getOrCreateItemEmbedding, hlook]
      · intro hp
        simpa [getOrCreateItemEmbedding, hlook] using hp

/-- C4 witness: the frame theorem applied to a concrete two-row table with
distinct item ids. -/
theorem getOrCreateItemEmbedding_frame_witness :
    ((getOrCreateItemEmbedding [(⟨"i", "B", 1, [2], 0⟩ : EmbRow), ⟨"j", "C", 1, [4], 0⟩]
        "A" "i" (some ⟨[3], 1, "A"⟩) 5).2).Pairwise (fun a b => a.item_id ≠ b.item_id) :=
  (getOrCreateItemEmbedding_frame [⟨"i", "B", 1, [2], 0⟩, ⟨"j", "C", 1, [4], 0⟩]
    "A" "i" (some ⟨[3], 1, "A"⟩) 5).2 (by decide)

/-! ## FTS5 query escaping (C9) -/

lemma reRun_eq_boundary (l : List Char) : ∀ inTok : Bool,
    reRun inTok l
      = if l.isEmpty then inTok
        else (l.all fun c => isWordChar c || isWsChar c) && isWordChar (l.getLastD 'x') := by
  induction l with
  | nil => intro inTok; rfl
  | cons c rest ih =>
    intro inTok
    have hstep : reRun inTok (c :: rest)
        = if isWordChar c then reRun true rest
          else if isWsChar c then reRun false rest else false := rfl
    cases rest with
    | nil =>
      by_cases hw : isWordChar c <;> by_cases hs : isWsChar c <;>
        simp [hstep, reRun, hw, hs]
    | cons d rest2 =>
      rw [hstep, ih true, ih false]
      by_cases hw : isWordChar c <;> by_cases hs : isWsChar c <;>
        simp [hw, hs, List.getLastD_cons, List.all_cons, Bool.and_assoc]

lemma reAccept_eq_wordTokensOnly (s : List Char) :
    reAccept s = wordTokensOnly s := by
  cases s with
  | nil => rfl
  | cons c rest =>
    cases rest with
    | nil =>
      by_cases hw : isWordChar c <;> simp [reAccept, reRun, wordTokensOnly, hw]
    | cons d rest2 =>
      rw [show reAccept (c :: d :: rest2) = (isWordChar c && reRun true (d :: rest2)) from rfl]
      rw [reRun_eq_boundary]
      rw [Bool.eq_iff_iff]
      simp only [wordTokensOnly, List.isEmpty_cons, Bool.not_false, List.headD_cons,
        List.getLastD_cons, List.all_cons, Bool.and_eq_true, Bool.or_eq_true,
        Bool.false_eq_true, if_false, true_and]
      tauto

/-- C9 counterexample: the source trims the query first, so for the input
`" a"` the result is `"a"`, which is neither the query passed through
unchanged nor the query wrapped as a quoted phrase — refuting the claim as
stated over all query strings. -/
theorem escapeFts5Query_trim_cex :
    escapeFts5Query [' ', 'a'] = ['a'] ∧
    (['a'] : List Char) ≠ [' ', 'a'] ∧
    (['a'] : List Char) ≠ '"' :: [' ', 'a'] ++ ['"'] := by
  decide

/-- C9 amended: for a query with no surrounding whitespace (trimming is the
identity on it) and nonempty, `escapeFts5Query` passes it through unescaped
exactly when it is composed solely of alphanumeric/underscore word tokens
separated by whitespace, and otherwise wraps it as a single quoted phrase
with internal double quotes doubled. -/
theorem escapeFts5Query_spec (q : List Char) (hq : trimChars q = q) (hne : q ≠ []) :
    (wordTokensOnly q = true → escapeFts5Query q = q) ∧
    (wordTokensOnly q = false →
      escapeFts5Query q
        = '"' :: (q.flatMap fun c => if c == '"' then ['"', '"'] else [c]) ++ ['"']) := by
  have hempty : q.isEmpty = false := by
    cases q with
    | nil => exact absurd rfl hne
    | cons a l => rfl
  constructor <;> intro hw <;>
    simp [escapeFts5Query, hq, hempty, reAccept_eq_wordTokensOnly, hw]

/-- C9 witness: a plain two-token query passes through; a query with a
non-word character is wrapped as a quoted phrase. -/
theorem escapeFts5Query_spec_witness :
    escapeFts5Query ['a', ' ', 'b'] = ['a', ' ', 'b'] ∧
    escapeFts5Query ['a', '?'] = ['"', 'a', '?', '"'] := by
  constructor
  · exact (escapeFts5Query_spec ['a', ' ', 'b'] (by decide) (by decide)).1 (by decide)
  · have h := (escapeFts5Query_spec ['a', '?'] (by decide) (by decide)).2 (by decide)
    simpa using h

/-! ## Graph path search (C2, C10) -/

lemma mem_insertPathAsc {p x : GraphPath} {l : List GraphPath} :
    p ∈ insertPathAsc x l ↔ p = x ∨ p ∈ l := by
  induction l with
  | nil => simp [insertPathAsc]
  | cons y ys ih =>
    rw [insertPathAsc]
    split
    · simp
    · simp only [List.mem_cons, ih]
      tauto

lemma mem_sortPathsByLen {p : GraphPath} {l : List GraphPath} :
    p ∈ sortPathsByLen l ↔ p ∈ l := by
  induction l with
  | nil => simp [sortPathsByLen]
  | cons x xs ih => simp [sortPathsByLen, mem_insertPathAsc, ih]

lemma adjacencyOf_valid (edges : List GraphEdge) (x : String) :
    ∀ y ∈ adjacencyOf edges x,
      y.2 ∈ edges ∧ ((y.2.subject = x ∧ y.2.object = y.1) ∨
        (y.2.subject = y.1 ∧ y.2.object = x)) := by
  intro y hy
  unfold adjacencyOf at hy
  rw [List.mem_flatMap] at hy
  obtain ⟨e, he, hmem⟩ := hy
  rw [List.mem_append] at hmem
  rcases hmem with h | h
  · split at h
    · rw [List.mem_singleton] at h
      subst h
      exact ⟨he, Or.inl ⟨by assumption, rfl⟩⟩
    · exact absurd h (List.not_mem_nil y)
  · split at h
    · rw [List.mem_singleton] at h
      subst h
      exact ⟨he, Or.inr ⟨rfl, by assumption⟩⟩
    · exact absurd h (List.not_mem_nil y)

lemma chainedB_append (edges : List GraphEdge) (l : List PathEntry) (y : PathEntry)
    (hl : l ≠ []) (hch : chainedB edges l = true)
    (hlink : linkB edges (l.getLastD ⟨"", none⟩) y = true) :
    chainedB edges (l ++ [y]) = true := by
  induction l with
  | nil => exact absurd rfl hl
  | cons x xs ih =>
    cases xs with
    | nil =>
      simp only [List.getLastD_cons, List.getLastD_nil] at hlink
      simp [chainedB, hlink]
    | cons z zs =>
      rw [chainedB, Bool.and_eq_true] at hch
      have hlink2 : linkB edges ((z :: zs).getLastD ⟨"", none⟩) y = true := by
        simpa [List.getLastD_cons] using hlink
      have h2 := ih (by simp) hch.2 hlink2
      show chainedB edges (x :: z :: (zs ++ [y])) = true
      rw [chainedB, Bool.and_eq_true]
      exact ⟨hch.1, by simpa [List.cons_append] using h2⟩

lemma headD_append_of_ne_nil (l : List PathEntry) (y d : PathEntry) (hl : l ≠ []) :
    (l ++ [y]).headD d = l.headD d := by
  cases l with
  | nil => exact absurd rfl hl
  | cons a t => rfl

lemma bfsStep_nodes_inv (edges : List GraphEdge) (fromE : String) (current : BfsNode)
    (hcur : NodeInv edges fromE current) :
    ∀ (nbs : List (String × GraphEdge)) (acc : List String × List BfsNode),
      (∀ y ∈ nbs, y.2 ∈ edges ∧ ((y.2.subject = current.entity ∧ y.2.object = y.1) ∨
        (y.2.subject = y.1 ∧ y.2.object = current.entity))) →
      (∀ n ∈ acc.2, NodeInv edges fromE n) →
      ∀ n ∈ (nbs.foldl (fun (acc : List String × List BfsNode) nb =>
          let key := current.entity ++ "|" ++ nb.1
          if acc.1.contains key then acc
          else (key :: acc.1,
            acc.2 ++ [⟨nb.1, current.path ++ [⟨nb.1, some nb.2⟩]⟩])) acc).2,
        NodeInv edges fromE n := by
  intro nbs
  induction nbs with
  | nil => intro acc _ hacc n hn; exact hacc n hn
  | cons nb nbs2 ih =>
    intro acc hadj hacc n hn
    rw [List.foldl_cons] at hn
    refine ih _ (fun y hy => hadj y (List.mem_cons_of_mem _ hy)) ?_ n hn
    intro m hm
    by_cases hc : acc.1.contains (current.entity ++ "|" ++ nb.1)
    · rw [if_pos hc] at hm
      exact hacc m hm
    · rw [if_neg hc] at hm
      rw [List.mem_append] at hm
      rcases hm with hm | hm
      · exact hacc m hm
      · rw [List.mem_singleton] at hm
        subst hm
        obtain ⟨hne, hhead, hlast, hchain⟩ := hcur
        obtain ⟨hmem, hso⟩ := hadj nb (List.mem_cons_self _ _)
        refine ⟨by simp, ?_, ?_, ?_⟩
        · rw [headD_append_of_ne_nil _ _ _ hne]
          exact hhead
        · rw [List.getLastD_concat]
        · refine chainedB_append edges _ _ hne hchain ?_
          rw [linkB]
          simp only [decide_eq_true_eq, Bool.and_eq_true, Bool.or_eq_true, beq_iff_eq]
          refine ⟨by simpa using hmem, ?_⟩
          rw [hlast]
          rcases hso with ⟨h1, h2⟩ | ⟨h1, h2⟩
          · exact Or.inl ⟨h1, h2⟩
          · exact Or.inr ⟨h1, h2⟩

lemma bfsLoop_inv (edges : List GraphEdge) (fromE toE : String) (d k : Nat) :
    ∀ (fuel : Nat) (queue : List BfsNode) (visited : List String)
      (paths : List GraphPath),
      (∀ n ∈ queue, NodeInv edges fromE n) →
      (∀ p ∈ paths, PathInv edges fromE toE p) →
      ∀ p ∈ bfsLoop edges fromE toE d k fuel queue visited paths,
        PathInv edges fromE toE p := by
  intro fuel
  induction fuel with
  | zero => intro queue visited paths _ hp p hmem; exact hp p hmem
  | succ n ih =>
    intro queue visited paths hq hp p hmem
    cases queue with
    | nil =>
      have hunf : bfsLoop edges fromE toE d k (n + 1) [] visited paths
          = if k ≤ paths.length then paths else paths := rfl
      rw [hunf] at hmem
      split at hmem <;> exact hp p hmem
    | cons current rest =>
      have hqcur : NodeInv edges fromE current := hq current (List.mem_cons_self _ _)
      have hqrest : ∀ m ∈ rest, NodeInv edges fromE m :=
        fun m hm => hq m (List.mem_cons_of_mem _ hm)
      have hunf : bfsLoop edges fromE toE d k (n + 1) (current :: rest) visited paths
          = if k ≤ paths.length then paths
            else if current.entity = toE ∧ 1 < current.path.length then
              bfsLoop edges fromE toE d k n rest visited
                (paths ++ [⟨fromE, toE, current.path, current.path.length - 1⟩])
            else if d < current.path.length then
              bfsLoop edges fromE toE d k n rest visited paths
            else
              bfsLoop edges fromE toE d k n
                (rest ++ ((adjacencyOf edges current.entity).foldl
                  (fun (acc : List String × List BfsNode) nb =>
                    let key := current.entity ++ "|" ++ nb.1
                    if acc.1.contains key then acc
                    else (key :: acc.1,
                      acc.2 ++ [⟨nb.1, current.path ++ [⟨nb.1, some nb.2⟩]⟩]))
                  (visited, [])).2)
                ((adjacencyOf edges current.entity).foldl
                  (fun (acc : List String × List BfsNode) nb =>
                    let key := current.entity ++ "|" ++ nb.1
                    if acc.1.contains key then acc
                    else (key :: acc.1,
                      acc.2 ++ [⟨nb.1, current.path ++ [⟨nb.1, some nb.2⟩]⟩]))
                  (visited, [])).1 paths := rfl
      rw [hunf] at hmem
      clear hunf
      split at hmem
      · exact hp p hmem
      · split at hmem
        · rename_i hcond
          refine ih rest visited _ hqrest ?_ p hmem
          intro p2 hp2
          rw [List.mem_append] at hp2
          rcases hp2 with hp2 | hp2
          · exact hp p2 hp2
          · rw [List.mem_singleton] at hp2
            subst hp2
            obtain ⟨hne, hhead, hlast, hchain⟩ := hqcur
            refine ⟨rfl, rfl, hcond.2, hhead, ?_, ?_, hchain⟩
            · rw [hlast, hcond.1]
            · show current.path.length - 1 + 1 = current.path.length
              have h1 := hcond.2
              omega
        · split at hmem
          · exact ih rest visited paths hqrest hp p hmem
          · refine ih _ _ paths ?_ hp p hmem
            intro m hm
            rw [List.mem_append] at hm
            rcases hm with hm | hm
            · exact hqrest m hm
            · exact bfsStep_nodes_inv edges fromE current hqcur _ _
                (adjacencyOf_valid edges current.entity)
                (by intro x hx; simp at hx) m hm

/-- C2 counterexample: with the single fact (A, p, B), `findPaths(A, A, 4, 5)`
returns the undirected cycle A–B–A (two edges), not an empty list — the BFS
only forbids the trivial zero-length self-path, not cycles back to A. -/
theorem findPaths_self_cycle_cex :
    findPaths [(⟨"f1", 0, "A", "p", "B", 1, none, none⟩ : Fact)] "A" "A" 4 5
      = [⟨"A", "A", [⟨"A", none⟩, ⟨"B", some ⟨"A", "p", "B", 1⟩⟩,
          ⟨"A", some ⟨"A", "p", "B", 1⟩⟩], 2⟩] ∧
    findPaths [(⟨"f1", 0, "A", "p", "B", 1, none, none⟩ : Fact)] "A" "A" 4 5 ≠ [] := by
  decide

/-- C2 amended: `findPaths(A, A, maxDepth, maxPaths)` never returns the
trivial self-path — every returned path has at least one edge (at least two
path entries, reported length at least 1) — but the returned list need not
be empty, since undirected cycles through A are returned. -/
theorem findPaths_self_no_trivial_path (facts : List Fact) (a : String)
    (maxDepth maxPaths : Nat) (p : GraphPath)
    (hp : p ∈ findPaths facts a a maxDepth maxPaths) :
    2 ≤ p.path.length ∧ 1 ≤ p.length := by
  simp only [findPaths] at hp
  rw [mem_sortPathsByLen] at hp
  have h := bfsLoop_inv (edgesOfFacts facts) a a maxDepth maxPaths
    (2 * (edgesOfFacts facts).length + 2) [⟨a, [⟨a, none⟩]⟩] [] []
    (by
      intro m hm
      rw [List.mem_singleton] at hm
      subst hm
      exact ⟨by simp, by simp, by simp [List.getLastD_cons], rfl⟩)
    (fun p2 hp2 => absurd hp2 (List.not_mem_nil p2)) p hp
  obtain ⟨-, -, hlen2, -, -, hlen, -⟩ := h
  exact ⟨hlen2, by omega⟩

/-- C2 witness: applied to the concrete cycle path returned for the graph
with the single fact (A, p, B). -/
theorem findPaths_self_no_trivial_path_witness :
    2 ≤ (⟨"A", "A", [⟨"A", none⟩, ⟨"B", some ⟨"A", "p", "B", 1⟩⟩,
          ⟨"A", some ⟨"A", "p", "B", 1⟩⟩], 2⟩ : GraphPath).path.length ∧
    1 ≤ (⟨"A", "A", [⟨"A", none⟩, ⟨"B", some ⟨"A", "p", "B", 1⟩⟩,
          ⟨"A", some ⟨"A", "p", "B", 1⟩⟩], 2⟩ : GraphPath).length :=
  findPaths_self_no_trivial_path [⟨"f1", 0, "A", "p", "B", 1, none, none⟩] "A" 4 5
    ⟨"A", "A", [⟨"A", none⟩, ⟨"B", some ⟨"A", "p", "B", 1⟩⟩,
      ⟨"A", some ⟨"A", "p", "B", 1⟩⟩], 2⟩ (by decide)

/-- C10: every path returned by `findPaths` is well-formed: its endpoints
fields are the requested entities, its first entry is the start entity, its
last entry is the goal entity, its reported length is the number of entries
minus one, and every consecutive pair of entries is joined by an edge that is
a stored fact whose unordered subject/object pair is that pair of entities. -/
theorem findPaths_wellformed (facts : List Fact) (fromE toE : String)
    (maxDepth maxPaths : Nat) (p : GraphPath)
    (hp : p ∈ findPaths facts fromE toE maxDepth maxPaths) :
    p.fromE = fromE ∧ p.toE = toE ∧ p.path ≠ [] ∧
    (p.path.headD ⟨"", none⟩).entity = fromE ∧
    (p.path.getLastD ⟨"", none⟩).entity = toE ∧
    p.length + 1 = p.path.length ∧
    chainedB (edgesOfFacts facts) p.path = true := by
  simp only [findPaths] at hp
  rw [mem_sortPathsByLen] at hp
  have h := bfsLoop_inv (edgesOfFacts facts) fromE toE maxDepth maxPaths
    (2 * (edgesOfFacts facts).length + 2) [⟨fromE, [⟨fromE, none⟩]⟩] [] []
    (by
      intro m hm
      rw [List.mem_singleton] at hm
      subst hm
      exact ⟨by simp, by simp, by simp [List.getLastD_cons], rfl⟩)
    (fun p2 hp2 => absurd hp2 (List.not_mem_nil p2)) p hp
  obtain ⟨h1, h2, hlen2, hhead, hlast, hlen, hchain⟩ := h
  refine ⟨h1, h2, ?_, hhead, hlast, hlen, hchain⟩
  intro hnil
  rw [hnil] at hlen2
  simp at hlen2

/-- C10 witness: the well-formedness conclusion instantiated at the concrete
one-edge path returned for the graph with the single fact (A, p, B). -/
theorem findPaths_wellformed_witness :
    (⟨"A", "B", [⟨"A", none⟩, ⟨"B", some ⟨"A", "p", "B", 1⟩⟩], 1⟩ : GraphPath).fromE = "A" ∧
    (⟨"A", "B", [⟨"A", none⟩, ⟨"B", some ⟨"A", "p", "B", 1⟩⟩], 1⟩ : GraphPath).toE = "B" ∧
    (⟨"A", "B", [⟨"A", none⟩, ⟨"B", some ⟨"A", "p", "B", 1⟩⟩], 1⟩ : GraphPath).path ≠ [] ∧
    ((⟨"A", "B", [⟨"A", none⟩, ⟨"B", some ⟨"A", "p", "B", 1⟩⟩], 1⟩ : GraphPath).path.headD
      ⟨"", none⟩).entity = "A" ∧
    ((⟨"A", "B", [⟨"A", none⟩, ⟨"B", some ⟨"A", "p", "B", 1⟩⟩], 1⟩ : GraphPath).path.getLastD
      ⟨"", none⟩).entity = "B" ∧
    (⟨"A", "B", [⟨"A", none⟩, ⟨"B", some ⟨"A", "p", "B", 1⟩⟩], 1⟩ : GraphPath).length + 1
      = (⟨"A", "B", [⟨"A", none⟩, ⟨"B", some ⟨"A", "p", "B", 1⟩⟩], 1⟩ : GraphPath).path.length ∧
    chainedB (edgesOfFacts [⟨"f1", 0, "A", "p", "B", 1, none, none⟩])
      (⟨"A", "B", [⟨"A", none⟩, ⟨"B", some ⟨"A", "p", "B", 1⟩⟩], 1⟩ : GraphPath).path = true :=
  findPaths_wellformed [⟨"f1", 0, "A", "p", "B", 1, none, none⟩] "A" "B" 4 5
    ⟨"A", "B", [⟨"A", none⟩, ⟨"B", some ⟨"A", "p", "B", 1⟩⟩], 1⟩ (by decide)

/-! ## Hybrid retrieval (C3, C5, C6) -/

lemma pairwise_of_all_rel {α : Type} {R : α → α → Prop} (h : ∀ a b, R a b) :
    ∀ l : List α, l.Pairwise R := by
  intro l
  induction l with
  | nil => exact List.Pairwise.nil
  | cons a t ih => exact List.Pairwise.cons (fun b _ => h a b) ih

lemma dedupById_sublist (rs : List LexicalResult) :
    ∀ seen, (dedupById rs seen).Sublist rs := by
  induction rs with
  | nil => intro seen; simp [dedupById]
  | cons r rs2 ih =>
    intro seen
    rw [dedupById]
    split
    · exact (ih seen).trans (List.sublist_cons_self r rs2)
    · exact List.Sublist.cons₂ r (ih (r.item.id :: seen))

lemma recentCandidates_score (items : List MemItem) (c : Nat) :
    ∀ r ∈ recentCandidates items c, r.lexicalScore = 0 := by
  intro r hr
  rw [recentCandidates, List.mem_map] at hr
  obtain ⟨it, -, rfl⟩ := hr
  rfl

lemma mem_insertScoreDesc {p x : HybridResult} {l : List HybridResult} :
    p ∈ insertScoreDesc x l ↔ p = x ∨ p ∈ l := by
  induction l with
  | nil => simp [insertScoreDesc]
  | cons y ys ih =>
    rw [insertScoreDesc]
    split
    · simp
    · simp only [List.mem_cons, ih]
      tauto

lemma mem_sortByScoreDesc {p : HybridResult} {l : List HybridResult} :
    p ∈ sortByScoreDesc l ↔ p ∈ l := by
  induction l with
  | nil => simp [sortByScoreDesc]
  | cons x xs ih => simp [sortByScoreDesc, mem_insertScoreDesc, ih]

lemma length_insertScoreDesc (x : HybridResult) (l : List HybridResult) :
    (insertScoreDesc x l).length = l.length + 1 := by
  induction l with
  | nil => rfl
  | cons y ys ih =>
    rw [insertScoreDesc]
    split
    · rfl
    · simp [ih]

lemma length_sortByScoreDesc (l : List HybridResult) :
    (sortByScoreDesc l).length = l.length := by
  induction l with
  | nil => rfl
  | cons x xs ih => rw [sortByScoreDesc, length_insertScoreDesc, ih, List.length_cons]

lemma scoreLoop_ok_spec (provider : String → Option EmbResult) (modelName : String)
    (now : Nat) (qv : List ℚ) (minLex denom w : ℚ) :
    ∀ (rs : List LexicalResult) (tbl : List EmbRow) (out : List HybridResult)
      (tblF : List EmbRow),
      scoreLoop provider modelName now qv minLex denom w rs tbl = .ok (out, tblF) →
      out.length = rs.length ∧
      ∀ e ∈ out, e.score = (1 - w) * ((e.lexicalScore - minLex) / denom)
        + w * semNormOf e.semanticScore := by
  intro rs
  induction rs with
  | nil =>
    intro tbl out tblF h
    have hunf : scoreLoop provider modelName now qv minLex denom w [] tbl
        = .ok ([], tbl) := rfl
    rw [hunf] at h
    simp only [Except.ok.injEq, Prod.mk.injEq] at h
    obtain ⟨h1, -⟩ := h
    subst h1
    simp
  | cons r rs2 ih =>
    intro tbl out tblF h
    have hunf : scoreLoop provider modelName now qv minLex denom w (r :: rs2) tbl
        = match semOf qv
            (getOrCreateItemEmbedding tbl modelName r.item.id (provider r.item.text) now).1 with
          | .error e => .error e
          | .ok sem =>
            match scoreLoop provider modelName now qv minLex denom w rs2
                (getOrCreateItemEmbedding tbl modelName r.item.id (provider r.item.text) now).2 with
            | .error e => .error e
            | .ok (out2, tblF2) =>
              .ok (⟨r.item, r.lexicalScore, sem,
                (1 - w) * ((r.lexicalScore - minLex) / denom) + w * semNormOf sem⟩ :: out2,
                tblF2) := rfl
    rw [hunf] at h
    cases hsem : semOf qv
        (getOrCreateItemEmbedding tbl modelName r.item.id (provider r.item.text) now).1 with
    | error e =>
      rw [hsem] at h
      simp at h
    | ok sem =>
      rw [hsem] at h
      cases hrec : scoreLoop provider modelName now qv minLex denom w rs2
          (getOrCreateItemEmbedding tbl modelName r.item.id (provider r.item.text) now).2 with
      | error e =>
        rw [hrec] at h
        simp at h
      | ok p2 =>
        obtain ⟨out2, tblF2⟩ := p2
        rw [hrec] at h
        simp only [Except.ok.injEq, Prod.mk.injEq] at h
        obtain ⟨h1, -⟩ := h
        subst h1
        obtain ⟨hl, hf⟩ := ih _ out2 tblF2 hrec
        constructor
        · simp [hl]
        · intro e he
          rcases List.mem_cons.mp he with he | he
          · subst he; rfl
          · exact hf e he

/-- C3: when the query-embedding fetch fails, `hybridSearch` does not throw:
it returns exactly the candidate pool truncated to `topK`, each entry with
`semanticScore = null` and fused score equal to its lexical score; and —
since the lexical index returns its hits best-first with the nonnegative
scores of the bm25 contract, and recency candidates carry score 0 — that
output is ordered by lexical score alone (descending). -/
theorem hybridSearch_provider_down (items : List MemItem) (tbl : List EmbRow)
    (lexHits : List LexicalResult) (provider : String → Option EmbResult)
    (modelName query : String) (topK candidates : Nat) (w : ℚ) (now : Nat)
    (hfail : provider query = none)
    (hsorted : lexHits.Pairwise fun a b => b.lexicalScore ≤ a.lexicalScore)
    (hnonneg : ∀ r ∈ lexHits, 0 ≤ r.lexicalScore) :
    hybridSearch items tbl lexHits provider modelName query topK candidates w now
      = .ok (((mergedCandidates items lexHits candidates).take topK).map fallbackResult,
          tbl) ∧
    (∀ r ∈ ((mergedCandidates items lexHits candidates).take topK).map fallbackResult,
      r.semanticScore = none ∧ r.score = r.lexicalScore) ∧
    (((mergedCandidates items lexHits candidates).take topK).map fallbackResult).Pairwise
      (fun a b => b.lexicalScore ≤ a.lexicalScore) := by
  refine ⟨?_, ?_, ?_⟩
  · cases hmc : mergedCandidates items lexHits candidates with
    | nil => simp [hybridSearch, hmc]
    | cons m ms => simp [hybridSearch, hmc, hfail]
  · intro r hr
    rw [List.mem_map] at hr
    obtain ⟨x, -, rfl⟩ := hr
    exact ⟨rfl, rfl⟩
  · have hall : (lexHits ++ recentCandidates items candidates).Pairwise
        (fun a b => b.lexicalScore ≤ a.lexicalScore) := by
      rw [List.pairwise_append]
      refine ⟨hsorted, ?_, ?_⟩
      · rw [recentCandidates, List.pairwise_map]
        exact pairwise_of_all_rel (fun a b => le_refl 0) _
      · intro a ha b hb
        rw [recentCandidates_score items candidates b hb]
        exact hnonneg a ha
    have hmerged := List.Pairwise.sublist (dedupById_sublist _ []) hall
    have htake := List.Pairwise.sublist
      (List.take_sublist topK (mergedCandidates items lexHits candidates)) hmerged
    exact htake.map fallbackResult (fun a b hab => hab)

/-- C3 witness: a concrete two-hit lexical pool with the provider down. -/
theorem hybridSearch_provider_down_witness :
    hybridSearch [] []
        [⟨⟨"a", 0, none, none, none, "ta", none, none, none, none, none⟩, 2⟩,
         ⟨⟨"b", 0, none, none, none, "tb", none, none, none, none, none⟩, 1⟩]
        (fun _ => none) "m" "q" 10 50 0 0
      = .ok (((mergedCandidates []
            [⟨⟨"a", 0, none, none, none, "ta", none, none, none, none, none⟩, 2⟩,
             ⟨⟨"b", 0, none, none, none, "tb", none, none, none, none, none⟩, 1⟩]
            50).take 10).map fallbackResult, []) :=
  (hybridSearch_provider_down [] [] _ (fun _ => none) "m" "q" 10 50 0 0 rfl
    (by decide) (by decide)).1

/-- C5: when the query embedding is obtained and `hybridSearch` returns, no
candidate is excluded (the output holds `min topK |candidates|` entries) and
every returned entry's score is `(1-w) * lexNorm + w * semNorm`, where
`lexNorm` linearly maps the lexical score by the candidate-set min and the
`max-min || 1` denominator, and `semNorm` is `(cos+1)/2` for an obtained
vector and 0 for a null semantic score. -/
theorem hybridSearch_fusion (items : List MemItem) (tbl : List EmbRow)
    (lexHits : List LexicalResult) (provider : String → Option EmbResult)
    (modelName query : String) (topK candidates : Nat) (w : ℚ) (now : Nat)
    (qEmb : EmbResult) (out : List HybridResult) (tblF : List EmbRow)
    (hq : provider query = some qEmb)
    (hok : hybridSearch items tbl lexHits provider modelName query topK candidates w now
      = .ok (out, tblF)) :
    out.length = min topK (mergedCandidates items lexHits candidates).length ∧
    ∀ e ∈ out, e.score
      = (1 - w) * ((e.lexicalScore - minLexOf (mergedCandidates items lexHits candidates))
          / denomLexOf (mergedCandidates items lexHits candidates))
        + w * semNormOf e.semanticScore := by
  cases hmc : mergedCandidates items lexHits candidates with
  | nil =>
    simp only [hybridSearch, hmc] at hok
    simp only [Except.ok.injEq, Prod.mk.injEq] at hok
    obtain ⟨h1, -⟩ := hok
    subst h1
    simp
  | cons m ms =>
    simp only [hybridSearch, hmc, hq] at hok
    cases hsl : scoreLoop provider modelName now qEmb.vector (minLexOf (m :: ms))
        (denomLexOf (m :: ms)) w (m :: ms) tbl with
    | error e =>
      rw [hsl] at hok
      simp at hok
    | ok p2 =>
      obtain ⟨o, t⟩ := p2
      rw [hsl] at hok
      simp only [Except.ok.injEq, Prod.mk.injEq] at hok
      obtain ⟨h1, -⟩ := hok
      subst h1
      obtain ⟨hlen, hsc⟩ := scoreLoop_ok_spec provider modelName now qEmb.vector
        (minLexOf (m :: ms)) (denomLexOf (m :: ms)) w (m :: ms) tbl o t hsl
      constructor
      · rw [List.length_take, length_sortByScoreDesc, hlen]
      · intro e he
        have hmem : e ∈ sortByScoreDesc o :=
          List.take_subset topK (sortByScoreDesc o) he
        rw [mem_sortByScoreDesc] at hmem
        exact hsc e hmem

/-- C5 witness: one candidate at lexical score 0, query and item vectors both
`[1]` (cosine 1), weight 1: the fused score is 1 and the output keeps the
single candidate. -/
theorem hybridSearch_fusion_witness :
    ([(⟨⟨"a", 0, none, none, none, "ta", none, none, none, none, none⟩, 0, some 1, 1⟩ :
        HybridResult)] : List HybridResult).length
      = min 10 (mergedCandidates []
          [⟨⟨"a", 0, none, none, none, "ta", none, none, none, none, none⟩, 0⟩] 50).length ∧
    ∀ e ∈ ([(⟨⟨"a", 0, none, none, none, "ta", none, none, none, none, none⟩, 0, some 1, 1⟩ :
        HybridResult)] : List HybridResult), e.score
      = (1 - 1) * ((e.lexicalScore - minLexOf (mergedCandidates []
            [⟨⟨"a", 0, none, none, none, "ta", none, none, none, none, none⟩, 0⟩] 50))
          / denomLexOf (mergedCandidates []
            [⟨⟨"a", 0, none, none, none, "ta", none, none, none, none, none⟩, 0⟩] 50))
        + 1 * semNormOf e.semanticScore :=
  hybridSearch_fusion []
    [] [⟨⟨"a", 0, none, none, none, "ta", none, none, none, none, none⟩, 0⟩]
    (fun _ => some ⟨[1], 1, "m"⟩) "m" "q" 10 50 1 0 ⟨[1], 1, "m"⟩
    [⟨⟨"a", 0, none, none, none, "ta", none, none, none, none, none⟩, 0, some 1, 1⟩]
    [⟨"a", "m", 1, [1], 0⟩] rfl (by
      norm_num [hybridSearch, mergedCandidates, dedupById, recentCandidates,
        sortByCreatedDesc, minLexOf, maxLexOf, denomLexOf, scoreLoop, semOf,
        getOrCreateItemEmbedding, lookupEmb, upsertEmb, cosine, dotQ, ratSqrt,
        semNormOf, sortByScoreDesc, insertScoreDesc, Except.map, List.take_succ_cons,
        List.take_nil, Rat.num_one, Rat.den_one])

/-- C6: attribution filtering is exact-match and post-hoc:
`hybridSearchFiltered` with a filter returns exactly the results of the
unfiltered `hybridSearch` whose item fields equal every supplied filter field
(unsupplied fields unconstrained), in the same order with the same scores;
and when no returned item carries the filtered entity id, the result is the
empty list, not an error. -/
theorem hybridSearchFiltered_exact (items : List MemItem) (tbl : List EmbRow)
    (lexHits : List LexicalResult) (provider : String → Option EmbResult)
    (modelName query : String) (topK candidates : Nat) (w : ℚ) (now : Nat)
    (f : FilterOpts) (out : List HybridResult) (tblF : List EmbRow)
    (hok : hybridSearch items tbl lexHits provider modelName query topK candidates w now
      = .ok (out, tblF)) :
    hybridSearchFiltered items tbl lexHits provider modelName query topK candidates w now
        (some f) = .ok (filterResults out f, tblF) ∧
    (∀ r, r ∈ filterResults out f ↔ r ∈ out ∧ matchesFilter f r = true) ∧
    (filterResults out f).Sublist out ∧
    (∀ v : Option String, f.entity_id = some v →
      (∀ r ∈ out, r.item.entity_id ≠ v) → filterResults out f = []) := by
  refine ⟨?_, ?_, ?_, ?_⟩
  · simp [hybridSearchFiltered, hok]
  · intro r
    exact List.mem_filter
  · exact List.filter_sublist out
  · intro v hv hne
    rw [filterResults, List.filter_eq_nil_iff]
    intro r hr
    rw [matchesFilter, hv]
    simp only [Bool.and_eq_true, beq_iff_eq]
    intro hcon
    exact hne r hr hcon.1.1

/-- C6 witness: filtering concrete provider-down results by an entity id that
no item carries yields the empty list, not an error. -/
theorem hybridSearchFiltered_exact_witness :
    hybridSearchFiltered []
        [] [⟨⟨"a", 0, none, none, none, "ta", none, none, none, none, none⟩, 1⟩]
        (fun _ => none) "m" "q" 10 50 0 0
        (some ⟨some (some "loic"), none, none⟩)
      = .ok (filterResults
          [⟨⟨"a", 0, none, none, none, "ta", none, none, none, none, none⟩, 1, none, 1⟩]
          ⟨some (some "loic"), none, none⟩, []) ∧
    filterResults
        [⟨⟨"a", 0, none, none, none, "ta", none, none, none, none, none⟩, 1, none, 1⟩]
        ⟨some (some "loic"), none, none⟩ = [] := by
  have h := hybridSearchFiltered_exact []
    [] [⟨⟨"a", 0, none, none, none, "ta", none, none, none, none, none⟩, 1⟩]
    (fun _ => none) "m" "q" 10 50 0 0 ⟨some (some "loic"), none, none⟩
    [⟨⟨"a", 0, none, none, none, "ta", none, none, none, none, none⟩, 1, none, 1⟩]
    [] (by decide)
  exact ⟨h.1, h.2.2.2 (some "loic") rfl (by decide)⟩

end OCMem
